import Mathlib

/-!
Shallow embedding of `drivers/flash/flash_infineon_pdl.c` (Zephyr flash driver
adapter for the Infineon PDL row-programming primitive), together with proofs
of the specification's claims about it.

Modelling conventions:
* `uint32_t` values are `Nat` with explicit reduction `% 2^32` wherever the C
  code performs 32-bit arithmetic (`u32`, `u32sub`); `off_t` (signed) is `Int`.
* Flash (and source-buffer) memory is a total map `Nat → Nat` from absolute
  byte addresses to byte values.
* The vendor primitive `Cy_Flash_WriteRow` is modelled by an oracle
  `ok : Nat → Bool` giving the success/failure of the k-th invocation, and by
  the faithful simulator `progRow` that stores exactly the row it is given.
  Each driver function returns the final memory, the trace of
  (address, row bytes) pairs passed to the primitive, and the C return code.
* The C `while (remaining_len > 0)` loops are rendered with a fuel parameter
  (initialised to the byte count, which bounds the iteration count since each
  iteration consumes at least one byte once validation has ensured a positive
  row size); the fuel-exhausted branch is unreachable on every validated path.
-/

namespace IfxFlash

/-- 2^32, the modulus of `uint32_t` arithmetic. -/
def U32MOD : Nat := 4294967296

/-- Reduction of a natural number to `uint32_t`. -/
def u32 (n : Nat) : Nat := n % U32MOD

/-- `uint32_t` subtraction `a - b` (two's-complement wraparound). -/
def u32sub (a b : Nat) : Nat := (a + U32MOD - b % U32MOD) % U32MOD

/-- Conversion of a signed value (`off_t`) to `uint32_t`, as C's integer
conversion does when a signed operand meets an unsigned one. -/
def u32ofInt (i : Int) : Nat := (i % (U32MOD : Int)).toNat

/-- A memory: bytes addressed by absolute address. -/
abbrev Mem : Type := Nat → Nat

/-- `-EINVAL` magnitude (Zephyr errno). -/
def EINVAL : Int := 22

/-- `- EIO` magnitude (Zephyr errno). -/
def EIO : Int := 5

/-- `struct ifx_flash_config`: the immutable region descriptor. -/
structure IfxFlashConfig where
  base_addr : Nat
  max_addr : Nat
  write_block_size : Nat
  erase_block_size : Nat

/-- Build-time facts about the configuration: the devicetree-derived values
satisfy the `BUILD_ASSERT`s (`max_addr > base_addr`, addresses fit `uint32_t`)
and the block sizes are positive. -/
def WfConfig (cfg : IfxFlashConfig) : Prop :=
  cfg.base_addr < cfg.max_addr ∧ cfg.max_addr < U32MOD ∧
    0 < cfg.write_block_size ∧ 0 < cfg.erase_block_size

instance (cfg : IfxFlashConfig) : Decidable (WfConfig cfg) := by
  unfold WfConfig; infer_instance

/-- `struct flash_parameters`. -/
structure FlashParameters where
  write_block_size : Nat
  erase_value : Nat
  no_explicit_erase : Bool

/-- The static `flash_parameters` table (write block size comes from the
devicetree property). -/
def flash_parameters (wbs : Nat) : FlashParameters :=
  { write_block_size := wbs, erase_value := 0xFF, no_explicit_erase := true }

/-- `memcpy` out of a memory: the `n` bytes starting at address `a`. -/
def readBytes (m : Mem) (a : Nat) : Nat → List Nat
  | 0 => []
  | n + 1 => m a :: readBytes m (a + 1) n

/-- The faithful row-program simulator: `Cy_Flash_WriteRow(addr, buf)` stores
exactly the bytes of `buf` at `addr`, leaving all other bytes unchanged. -/
def progRow (m : Mem) (addr : Nat) (buf : List Nat) : Mem :=
  fun a => if addr ≤ a ∧ a < addr + buf.length then buf.getD (a - addr) 0 else m a

/-- The staged write loop of `flash_ifx_write` (source pointer not 4-byte
aligned): each iteration `memcpy`s one row from the source into the aligned
staging buffer `row_buf` and passes that buffer to `Cy_Flash_WriteRow`.
Returns (final memory, trace of primitive invocations, return code). -/
def writeLoopStagedF (ok : Nat → Bool) (srcMem : Mem) (row fuel k wo sp remaining : Nat)
    (m : Mem) : Mem × List (Nat × List Nat) × Int :=
  if remaining = 0 then (m, [], 0)
  else
    match fuel with
    | 0 => (m, [], - EIO)  -- fuel exhausted: unreachable when fuel ≥ remaining and 0 < row
    | fuel' + 1 =>
      let row_buf := readBytes srcMem sp row  -- memcpy(row_buf, src_ptr, row_len)
      if ok k then
        let r := writeLoopStagedF ok srcMem row fuel' (k + 1) (u32 (wo + row)) (sp + row)
          (remaining - row) (progRow m wo row_buf)
        (r.1, (wo, row_buf) :: r.2.1, r.2.2)
      else (m, [(wo, row_buf)], - EIO)

/-- The zero-copy write loop of `flash_ifx_write` (source pointer 4-byte
aligned): `Cy_Flash_WriteRow` is invoked directly on the advancing source
pointer, hence on the row of bytes at the current source address. -/
def writeLoopAlignedF (ok : Nat → Bool) (srcMem : Mem) (row fuel k wo sp remaining : Nat)
    (m : Mem) : Mem × List (Nat × List Nat) × Int :=
  if remaining = 0 then (m, [], 0)
  else
    match fuel with
    | 0 => (m, [], - EIO)  -- fuel exhausted: unreachable when fuel ≥ remaining and 0 < row
    | fuel' + 1 =>
      if ok k then
        let r := writeLoopAlignedF ok srcMem row fuel' (k + 1) (u32 (wo + row)) (sp + row)
          (remaining - row) (progRow m wo (readBytes srcMem sp row))
        (r.1, (wo, readBytes srcMem sp row) :: r.2.1, r.2.2)
      else (m, [(wo, readBytes srcMem sp row)], - EIO)

/-- The erase loop of `flash_ifx_erase`: each iteration `memset`s the staging
buffer to the erase value 0xFF and programs it into the current row. -/
def eraseLoopF (ok : Nat → Bool) (row fuel k eo size : Nat) (m : Mem) :
    Mem × List (Nat × List Nat) × Int :=
  if size = 0 then (m, [], 0)
  else
    match fuel with
    | 0 => (m, [], - EIO)  -- fuel exhausted: unreachable when fuel ≥ size and 0 < row
    | fuel' + 1 =>
      let row_buf := List.replicate row 0xFF  -- memset(row_buf, 0xFF, row_len)
      if ok k then
        let r := eraseLoopF ok row fuel' (k + 1) (u32 (eo + row)) (size - row)
          (progRow m eo row_buf)
        (r.1, (eo, row_buf) :: r.2.1, r.2.2)
      else (m, [(eo, row_buf)], - EIO)

/-- `flash_ifx_write(dev, offset, data, remaining_len)`. The caller's buffer
is the bytes of `srcMem` starting at address `sp` (`data == (uint8_t *)sp`).
Returns (final flash memory, trace of `Cy_Flash_WriteRow` invocations,
return code). -/
def flash_ifx_write (cfg : IfxFlashConfig) (ok : Nat → Bool) (m : Mem) (offset : Int)
    (srcMem : Mem) (sp : Nat) (remaining_len : Nat) : Mem × List (Nat × List Nat) × Int :=
  let row_len := cfg.write_block_size
  if remaining_len = 0 then (m, [], 0)
  else if offset < 0 then (m, [], -EINVAL)
  -- Write offset and size must be aligned to write_block_size
  else if offset.toNat % row_len ≠ 0 ∨ remaining_len % row_len ≠ 0 then (m, [], -EINVAL)
  -- offset does not fit within flash memory range
  else if (u32sub cfg.max_addr cfg.base_addr : Int) < offset then (m, [], -EINVAL)
  else
    let write_offset := u32 (cfg.base_addr + offset.toNat)
    -- check bounds before starting write
    if u32sub cfg.max_addr write_offset < remaining_len then (m, [], -EINVAL)
    -- ((uintptr_t)src_ptr & 0x3) != 0, i.e. sp % 4 ≠ 0
    else if sp % 4 ≠ 0 then
      writeLoopStagedF ok srcMem row_len remaining_len 0 write_offset sp remaining_len m
    else
      writeLoopAlignedF ok srcMem row_len remaining_len 0 write_offset sp remaining_len m

/-- `flash_ifx_read(dev, offset, data, remaining_len)`: returns the bytes
`memcpy`ed into the caller's buffer together with the return code. -/
def flash_ifx_read (cfg : IfxFlashConfig) (m : Mem) (offset : Int)
    (remaining_len : Nat) : List Nat × Int :=
  if remaining_len = 0 then ([], 0)
  -- offset does not fit within range memory range
  else if offset < 0 ∨ (u32sub cfg.max_addr cfg.base_addr : Int) < offset then ([], -EINVAL)
  else
    let read_offset := u32 (cfg.base_addr + offset.toNat)
    if u32sub cfg.max_addr read_offset < remaining_len then ([], -EINVAL)
    else (readBytes m read_offset remaining_len, 0)

/-- `flash_ifx_erase(dev, offset, size)`. In the C source `offset % row_len`
converts the signed `offset` to `uint32_t` (the unsigned operand has the same
rank), hence `u32ofInt`. -/
def flash_ifx_erase (cfg : IfxFlashConfig) (ok : Nat → Bool) (m : Mem) (offset : Int)
    (size : Nat) : Mem × List (Nat × List Nat) × Int :=
  let row_len := cfg.erase_block_size
  if size = 0 then (m, [], 0)
  -- Offset must be aligned to row boundary
  else if u32ofInt offset % row_len ≠ 0 then (m, [], -EINVAL)
  -- Size must be a multiple of row size
  else if size % row_len ≠ 0 then (m, [], -EINVAL)
  -- offset does not fit within range memory range
  else if offset < 0 ∨ (u32sub cfg.max_addr cfg.base_addr : Int) < offset then (m, [], -EINVAL)
  else
    let erase_offset := u32 (cfg.base_addr + offset.toNat)
    if u32sub cfg.max_addr erase_offset < size then (m, [], -EINVAL)
    else eraseLoopF ok row_len size 0 erase_offset size m

/-- `flash_ifx_get_size(dev, size)`: stores `max_addr - base_addr` (uint32
subtraction, widened to `uint64_t`) and returns 0. -/
def flash_ifx_get_size (cfg : IfxFlashConfig) : Nat × Int :=
  (u32sub cfg.max_addr cfg.base_addr, 0)

/-! ### Arithmetic helper lemmas -/

theorem u32_eq_of_lt {n : Nat} (h : n < U32MOD) : u32 n = n := Nat.mod_eq_of_lt h

theorem u32sub_eq_sub {a b : Nat} (hb : b ≤ a) (ha : a < U32MOD) : u32sub a b = a - b := by
  unfold u32sub
  rw [Nat.mod_eq_of_lt (lt_of_le_of_lt hb ha)]
  have h1 : a + U32MOD - b = a - b + U32MOD := by omega
  rw [h1, Nat.add_mod_right, Nat.mod_eq_of_lt (by omega)]

theorem u32ofInt_eq_toNat {i : Int} (h0 : 0 ≤ i) (h : i < (U32MOD : Nat)) :
    u32ofInt i = i.toNat := by
  unfold u32ofInt U32MOD at *
  omega

/-! ### Byte-list helper lemmas -/

theorem readBytes_length (m : Mem) (a n : Nat) : (readBytes m a n).length = n := by
  induction n generalizing a with
  | zero => rfl
  | succ n ih => simp [readBytes, ih]

theorem readBytes_getD (m : Mem) (a : Nat) {i n : Nat} (h : i < n) :
    (readBytes m a n).getD i 0 = m (a + i) := by
  induction n generalizing a i with
  | zero => omega
  | succ n ih =>
    cases i with
    | zero => simp [readBytes]
    | succ i =>
      have h2 : a + 1 + i = a + (i + 1) := by omega
      simp only [readBytes, List.getD_cons_succ]
      rw [ih (a + 1) (by omega), h2]

theorem readBytes_congr {m1 m2 : Mem} {a b n : Nat}
    (h : ∀ i, i < n → m1 (a + i) = m2 (b + i)) : readBytes m1 a n = readBytes m2 b n := by
  induction n generalizing a b with
  | zero => rfl
  | succ n ih =>
    simp only [readBytes]
    have h0 : m1 a = m2 b := by simpa using h 0 (by omega)
    rw [h0, ih (fun i hi => by
      have := h (i + 1) (by omega)
      have e1 : a + (i + 1) = a + 1 + i := by omega
      have e2 : b + (i + 1) = b + 1 + i := by omega
      rw [e1, e2] at this
      exact this)]

theorem readBytes_eq_replicate {m : Mem} {a n c : Nat}
    (h : ∀ i, i < n → m (a + i) = c) : readBytes m a n = List.replicate n c := by
  induction n generalizing a with
  | zero => rfl
  | succ n ih =>
    simp only [readBytes, List.replicate]
    have h0 : m a = c := by simpa using h 0 (by omega)
    rw [h0, ih (fun i hi => by
      have := h (i + 1) (by omega)
      have e1 : a + (i + 1) = a + 1 + i := by omega
      rw [e1] at this
      exact this)]

theorem getD_replicate {i n c : Nat} (h : i < n) : (List.replicate n c).getD i 0 = c := by
  induction n generalizing i with
  | zero => omega
  | succ n ih =>
    cases i with
    | zero => simp [List.replicate]
    | succ i =>
      simp only [List.replicate, List.getD_cons_succ]
      exact ih (by omega)

/-! ### Characterizations of the validation phase -/

/-- The validity condition `flash_ifx_write`'s checks enforce for a
nonzero-length request (in plain arithmetic). -/
def writeValid (cfg : IfxFlashConfig) (offset : Int) (len : Nat) : Prop :=
  0 ≤ offset ∧ offset.toNat % cfg.write_block_size = 0 ∧ len % cfg.write_block_size = 0 ∧
    offset.toNat + len ≤ cfg.max_addr - cfg.base_addr

instance (cfg : IfxFlashConfig) (offset : Int) (len : Nat) :
    Decidable (writeValid cfg offset len) := by
  unfold writeValid; infer_instance

/-- The validity condition `flash_ifx_read`'s checks enforce for a
nonzero-length request. -/
def readValid (cfg : IfxFlashConfig) (offset : Int) (len : Nat) : Prop :=
  0 ≤ offset ∧ offset.toNat + len ≤ cfg.max_addr - cfg.base_addr

instance (cfg : IfxFlashConfig) (offset : Int) (len : Nat) :
    Decidable (readValid cfg offset len) := by
  unfold readValid; infer_instance

/-- The validity condition `flash_ifx_erase`'s checks enforce for a
nonzero-size request. -/
def eraseValid (cfg : IfxFlashConfig) (offset : Int) (size : Nat) : Prop :=
  0 ≤ offset ∧ offset.toNat % cfg.erase_block_size = 0 ∧ size % cfg.erase_block_size = 0 ∧
    offset.toNat + size ≤ cfg.max_addr - cfg.base_addr

instance (cfg : IfxFlashConfig) (offset : Int) (size : Nat) :
    Decidable (eraseValid cfg offset size) := by
  unfold eraseValid; infer_instance

theorem flash_ifx_write_eq (cfg : IfxFlashConfig) (ok : Nat → Bool) (m : Mem) (offset : Int)
    (srcMem : Mem) (sp : Nat) {len : Nat} (wf : WfConfig cfg) (hlen : len ≠ 0) :
    flash_ifx_write cfg ok m offset srcMem sp len =
      if writeValid cfg offset len then
        (if sp % 4 ≠ 0 then
          writeLoopStagedF ok srcMem cfg.write_block_size len 0
            (cfg.base_addr + offset.toNat) sp len m
        else
          writeLoopAlignedF ok srcMem cfg.write_block_size len 0
            (cfg.base_addr + offset.toNat) sp len m)
      else (m, [], -EINVAL) := by
  obtain ⟨wf1, wf2, wf3, wf4⟩ := wf
  have hspan : u32sub cfg.max_addr cfg.base_addr = cfg.max_addr - cfg.base_addr :=
    u32sub_eq_sub (le_of_lt wf1) wf2
  by_cases hv : writeValid cfg offset len
  · obtain ⟨hv0, hv1, hv2, hv3⟩ := hv
    have hwo : cfg.base_addr + offset.toNat < U32MOD := by omega
    rw [if_pos ⟨hv0, hv1, hv2, hv3⟩]
    unfold flash_ifx_write
    rw [if_neg hlen, if_neg (by omega), if_neg (by push_neg; exact ⟨hv1, hv2⟩),
      if_neg (by rw [hspan]; omega)]
    simp only [u32_eq_of_lt hwo]
    rw [if_neg (by rw [u32sub_eq_sub (by omega) wf2]; omega)]
  · rw [if_neg hv]
    unfold flash_ifx_write
    rw [if_neg hlen]
    by_cases h1 : offset < 0
    · rw [if_pos h1]
    rw [if_neg h1]
    by_cases h2 : offset.toNat % cfg.write_block_size ≠ 0 ∨ len % cfg.write_block_size ≠ 0
    · rw [if_pos h2]
    rw [if_neg h2]
    push_neg at h2
    by_cases h3 : (u32sub cfg.max_addr cfg.base_addr : Int) < offset
    · rw [if_pos h3]
    rw [if_neg h3]
    rw [hspan] at h3
    have hbound : ¬(offset.toNat + len ≤ cfg.max_addr - cfg.base_addr) := fun hb =>
      hv ⟨by omega, h2.1, h2.2, hb⟩
    have hwo : cfg.base_addr + offset.toNat < U32MOD := by omega
    simp only [u32_eq_of_lt hwo]
    rw [if_pos (by rw [u32sub_eq_sub (by omega) wf2]; omega)]

theorem flash_ifx_read_eq (cfg : IfxFlashConfig) (m : Mem) (offset : Int) {len : Nat}
    (wf : WfConfig cfg) (hlen : len ≠ 0) :
    flash_ifx_read cfg m offset len =
      if readValid cfg offset len then
        (readBytes m (cfg.base_addr + offset.toNat) len, 0)
      else ([], -EINVAL) := by
  obtain ⟨wf1, wf2, wf3, wf4⟩ := wf
  have hspan : u32sub cfg.max_addr cfg.base_addr = cfg.max_addr - cfg.base_addr :=
    u32sub_eq_sub (le_of_lt wf1) wf2
  by_cases hv : readValid cfg offset len
  · obtain ⟨hv0, hv1⟩ := hv
    have hwo : cfg.base_addr + offset.toNat < U32MOD := by omega
    rw [if_pos ⟨hv0, hv1⟩]
    unfold flash_ifx_read
    rw [if_neg hlen, if_neg (by rw [hspan]; push_neg; constructor <;> omega)]
    simp only [u32_eq_of_lt hwo]
    rw [if_neg (by rw [u32sub_eq_sub (by omega) wf2]; omega)]
  · rw [if_neg hv]
    unfold flash_ifx_read
    rw [if_neg hlen]
    by_cases h1 : offset < 0 ∨ (u32sub cfg.max_addr cfg.base_addr : Int) < offset
    · rw [if_pos h1]
    rw [if_neg h1]
    push_neg at h1
    rw [hspan] at h1
    have hbound : ¬(offset.toNat + len ≤ cfg.max_addr - cfg.base_addr) := fun hb =>
      hv ⟨h1.1, hb⟩
    have hwo : cfg.base_addr + offset.toNat < U32MOD := by omega
    simp only [u32_eq_of_lt hwo]
    rw [if_pos (by rw [u32sub_eq_sub (by omega) wf2]; omega)]

theorem flash_ifx_erase_eq (cfg : IfxFlashConfig) (ok : Nat → Bool) (m : Mem) (offset : Int)
    {size : Nat} (wf : WfConfig cfg) (hsize : size ≠ 0) :
    flash_ifx_erase cfg ok m offset size =
      if eraseValid cfg offset size then
        eraseLoopF ok cfg.erase_block_size size 0 (cfg.base_addr + offset.toNat) size m
      else (m, [], -EINVAL) := by
  obtain ⟨wf1, wf2, wf3, wf4⟩ := wf
  have hspan : u32sub cfg.max_addr cfg.base_addr = cfg.max_addr - cfg.base_addr :=
    u32sub_eq_sub (le_of_lt wf1) wf2
  by_cases hv : eraseValid cfg offset size
  · obtain ⟨hv0, hv1, hv2, hv3⟩ := hv
    have hofs : u32ofInt offset = offset.toNat := u32ofInt_eq_toNat hv0 (by omega)
    have hwo : cfg.base_addr + offset.toNat < U32MOD := by omega
    rw [if_pos ⟨hv0, hv1, hv2, hv3⟩]
    unfold flash_ifx_erase
    rw [if_neg hsize, if_neg (by rw [hofs]; simpa using hv1), if_neg (by simpa using hv2),
      if_neg (by rw [hspan]; push_neg; constructor <;> omega)]
    simp only [u32_eq_of_lt hwo]
    rw [if_neg (by rw [u32sub_eq_sub (by omega) wf2]; omega)]
  · rw [if_neg hv]
    unfold flash_ifx_erase
    rw [if_neg hsize]
    by_cases h1 : u32ofInt offset % cfg.erase_block_size ≠ 0
    · rw [if_pos h1]
    rw [if_neg h1]
    push_neg at h1
    by_cases h2 : size % cfg.erase_block_size ≠ 0
    · rw [if_pos h2]
    rw [if_neg h2]
    push_neg at h2
    by_cases h3 : offset < 0 ∨ (u32sub cfg.max_addr cfg.base_addr : Int) < offset
    · rw [if_pos h3]
    rw [if_neg h3]
    push_neg at h3
    rw [hspan] at h3
    have hofs : u32ofInt offset = offset.toNat := u32ofInt_eq_toNat h3.1 (by omega)
    rw [hofs] at h1
    have hbound : ¬(offset.toNat + size ≤ cfg.max_addr - cfg.base_addr) := fun hb =>
      hv ⟨h3.1, h1, h2, hb⟩
    have hwo : cfg.base_addr + offset.toNat < U32MOD := by omega
    simp only [u32_eq_of_lt hwo]
    rw [if_pos (by rw [u32sub_eq_sub (by omega) wf2]; omega)]

/-! ### Loop lemmas -/

theorem writeLoopAlignedF_eq_stagedF (ok : Nat → Bool) (srcMem : Mem) (row : Nat) :
    ∀ fuel k wo sp remaining m,
      writeLoopAlignedF ok srcMem row fuel k wo sp remaining m =
        writeLoopStagedF ok srcMem row fuel k wo sp remaining m := by
  intro fuel
  induction fuel with
  | zero =>
    intro k wo sp remaining m
    simp [writeLoopAlignedF, writeLoopStagedF]
  | succ fuel ih =>
    intro k wo sp remaining m
    by_cases h0 : remaining = 0
    · simp [writeLoopAlignedF, writeLoopStagedF, h0]
    · by_cases hok : ok k
      · simp [writeLoopAlignedF, writeLoopStagedF, h0, hok, ih]
      · simp [writeLoopAlignedF, writeLoopStagedF, h0, hok]

theorem writeLoopStagedF_ret (ok : Nat → Bool) (srcMem : Mem) (row : Nat) :
    ∀ fuel k wo sp remaining m,
      (writeLoopStagedF ok srcMem row fuel k wo sp remaining m).2.2 = 0 ∨
        (writeLoopStagedF ok srcMem row fuel k wo sp remaining m).2.2 = - EIO := by
  intro fuel
  induction fuel with
  | zero =>
    intro k wo sp remaining m
    by_cases h0 : remaining = 0 <;> simp [writeLoopStagedF, h0]
  | succ fuel ih =>
    intro k wo sp remaining m
    by_cases h0 : remaining = 0
    · simp [writeLoopStagedF, h0]
    · by_cases hok : ok k
      · simpa [writeLoopStagedF, h0, hok] using ih (k + 1) (u32 (wo + row)) (sp + row)
          (remaining - row) (progRow m wo (readBytes srcMem sp row))
      · simp [writeLoopStagedF, h0, hok]

theorem eraseLoopF_ret (ok : Nat → Bool) (row : Nat) :
    ∀ fuel k eo size m,
      (eraseLoopF ok row fuel k eo size m).2.2 = 0 ∨
        (eraseLoopF ok row fuel k eo size m).2.2 = - EIO := by
  intro fuel
  induction fuel with
  | zero =>
    intro k eo size m
    by_cases h0 : size = 0 <;> simp [eraseLoopF, h0]
  | succ fuel ih =>
    intro k eo size m
    by_cases h0 : size = 0
    · simp [eraseLoopF, h0]
    · by_cases hok : ok k
      · simpa [eraseLoopF, h0, hok] using ih (k + 1) (u32 (eo + row)) (size - row)
          (progRow m eo (List.replicate row 0xFF))
      · simp [eraseLoopF, h0, hok]

theorem writeLoopStagedF_trace_bound (ok : Nat → Bool) (srcMem : Mem) {row : Nat}
    (hrow : 0 < row) :
    ∀ fuel k wo sp remaining m, remaining ≤ fuel → row ∣ remaining →
      wo + remaining < U32MOD →
      ∀ p ∈ (writeLoopStagedF ok srcMem row fuel k wo sp remaining m).2.1,
        wo ≤ p.1 ∧ p.1 + row ≤ wo + remaining := by
  intro fuel
  induction fuel with
  | zero =>
    intro k wo sp remaining m hle hdvd hlt p hp
    have h0 : remaining = 0 := by omega
    simp [writeLoopStagedF, h0] at hp
  | succ fuel ih =>
    intro k wo sp remaining m hle hdvd hlt p hp
    by_cases h0 : remaining = 0
    · simp [writeLoopStagedF, h0] at hp
    · have hrle : row ≤ remaining := Nat.le_of_dvd (Nat.pos_of_ne_zero h0) hdvd
      by_cases hok : ok k
      · simp only [writeLoopStagedF, h0, if_false, hok, if_true] at hp
        rw [u32_eq_of_lt (by omega)] at hp
        simp only [List.mem_cons] at hp
        rcases hp with hp | hp
        · subst hp
          exact ⟨by simp, by simp; omega⟩
        · have := ih (k + 1) (wo + row) (sp + row) (remaining - row)
            (progRow m wo (readBytes srcMem sp row)) (by omega)
            (Nat.dvd_sub' hdvd dvd_rfl) (by omega) p hp
          omega
      · simp [writeLoopStagedF, h0, hok] at hp
        subst hp
        exact ⟨by simp, by simp; omega⟩

theorem eraseLoopF_trace (ok : Nat → Bool) {row : Nat} (hrow : 0 < row) :
    ∀ fuel k eo size m, size ≤ fuel → row ∣ size → eo + size < U32MOD →
      ∀ p ∈ (eraseLoopF ok row fuel k eo size m).2.1,
        (eo ≤ p.1 ∧ p.1 + row ≤ eo + size) ∧ p.2 = List.replicate row 0xFF := by
  intro fuel
  induction fuel with
  | zero =>
    intro k eo size m hle hdvd hlt p hp
    have h0 : size = 0 := by omega
    simp [eraseLoopF, h0] at hp
  | succ fuel ih =>
    intro k eo size m hle hdvd hlt p hp
    by_cases h0 : size = 0
    · simp [eraseLoopF, h0] at hp
    · have hrle : row ≤ size := Nat.le_of_dvd (Nat.pos_of_ne_zero h0) hdvd
      by_cases hok : ok k
      · simp only [eraseLoopF, h0, if_false, hok, if_true] at hp
        rw [u32_eq_of_lt (by omega)] at hp
        simp only [List.mem_cons] at hp
        rcases hp with hp | hp
        · subst hp
          refine ⟨⟨le_refl _, by simp; omega⟩, rfl⟩
        · have := ih (k + 1) (eo + row) (size - row)
            (progRow m eo (List.replicate row 0xFF)) (by omega)
            (Nat.dvd_sub' hdvd dvd_rfl) (by omega) p hp
          exact ⟨⟨by omega, by omega⟩, this.2⟩
      · simp [eraseLoopF, h0, hok] at hp
        subst hp
        exact ⟨⟨le_refl _, by simp; omega⟩, rfl⟩

theorem writeLoopStagedF_all_ok (srcMem : Mem) {ok : Nat → Bool}
    (hok : ∀ j, ok j = true) {row : Nat} (hrow : 0 < row) :
    ∀ fuel k wo sp remaining m, remaining ≤ fuel → row ∣ remaining →
      wo + remaining < U32MOD →
      (writeLoopStagedF ok srcMem row fuel k wo sp remaining m).2.2 = 0 ∧
      ∀ a, (writeLoopStagedF ok srcMem row fuel k wo sp remaining m).1 a =
        if wo ≤ a ∧ a < wo + remaining then srcMem (sp + (a - wo)) else m a := by
  intro fuel
  induction fuel with
  | zero =>
    intro k wo sp remaining m hle hdvd hlt
    have h0 : remaining = 0 := by omega
    refine ⟨by simp [writeLoopStagedF, h0], fun a => ?_⟩
    simp only [writeLoopStagedF, h0, if_true]
    rw [if_neg (by omega)]
  | succ fuel ih =>
    intro k wo sp remaining m hle hdvd hlt
    by_cases h0 : remaining = 0
    · refine ⟨by simp [writeLoopStagedF, h0], fun a => ?_⟩
      simp only [writeLoopStagedF, h0, if_true]
      rw [if_neg (by omega)]
    · have hrle : row ≤ remaining := Nat.le_of_dvd (Nat.pos_of_ne_zero h0) hdvd
      have hrec := ih (k + 1) (wo + row) (sp + row) (remaining - row)
        (progRow m wo (readBytes srcMem sp row)) (by omega)
        (Nat.dvd_sub' hdvd dvd_rfl) (by omega)
      constructor
      · simp only [writeLoopStagedF, h0, if_false, hok k, if_true]
        rw [u32_eq_of_lt (by omega)]
        exact hrec.1
      · intro a
        simp only [writeLoopStagedF, h0, if_false, hok k, if_true]
        rw [u32_eq_of_lt (by omega)]
        rw [hrec.2 a]
        by_cases c1 : wo + row ≤ a ∧ a < wo + row + (remaining - row)
        · rw [if_pos c1, if_pos (by omega)]
          have : sp + row + (a - (wo + row)) = sp + (a - wo) := by omega
          rw [this]
        · rw [if_neg c1]
          unfold progRow
          rw [readBytes_length]
          by_cases c2 : wo ≤ a ∧ a < wo + row
          · rw [if_pos c2, if_pos (by omega)]
            rw [readBytes_getD srcMem sp (show a - wo < row by omega)]
          · rw [if_neg c2, if_neg (by omega)]

theorem eraseLoopF_all_ok {ok : Nat → Bool} (hok : ∀ j, ok j = true) {row : Nat}
    (hrow : 0 < row) :
    ∀ fuel k eo size m, size ≤ fuel → row ∣ size → eo + size < U32MOD →
      (eraseLoopF ok row fuel k eo size m).2.2 = 0 ∧
      ∀ a, (eraseLoopF ok row fuel k eo size m).1 a =
        if eo ≤ a ∧ a < eo + size then 0xFF else m a := by
  intro fuel
  induction fuel with
  | zero =>
    intro k eo size m hle hdvd hlt
    have h0 : size = 0 := by omega
    refine ⟨by simp [eraseLoopF, h0], fun a => ?_⟩
    simp only [eraseLoopF, h0, if_true]
    rw [if_neg (by omega)]
  | succ fuel ih =>
    intro k eo size m hle hdvd hlt
    by_cases h0 : size = 0
    · refine ⟨by simp [eraseLoopF, h0], fun a => ?_⟩
      simp only [eraseLoopF, h0, if_true]
      rw [if_neg (by omega)]
    · have hrle : row ≤ size := Nat.le_of_dvd (Nat.pos_of_ne_zero h0) hdvd
      have hrec := ih (k + 1) (eo + row) (size - row)
        (progRow m eo (List.replicate row 0xFF)) (by omega)
        (Nat.dvd_sub' hdvd dvd_rfl) (by omega)
      constructor
      · simp only [eraseLoopF, h0, if_false, hok k, if_true]
        rw [u32_eq_of_lt (by omega)]
        exact hrec.1
      · intro a
        simp only [eraseLoopF, h0, if_false, hok k, if_true]
        rw [u32_eq_of_lt (by omega)]
        rw [hrec.2 a]
        by_cases c1 : eo + row ≤ a ∧ a < eo + row + (size - row)
        · rw [if_pos c1, if_pos (by omega)]
        · rw [if_neg c1]
          unfold progRow
          rw [List.length_replicate]
          by_cases c2 : eo ≤ a ∧ a < eo + row
          · rw [if_pos c2, if_pos (by omega)]
            exact getD_replicate (by omega)
          · rw [if_neg c2, if_neg (by omega)]

theorem writeLoopStagedF_fail_at (srcMem : Mem) {ok : Nat → Bool} {row : Nat}
    (hrow : 0 < row) :
    ∀ d fuel k wo sp remaining m,
      (∀ j, j < d → ok (k + j) = true) → ok (k + d) = false →
      (d + 1) * row ≤ remaining → remaining ≤ fuel → wo + remaining < U32MOD →
      (writeLoopStagedF ok srcMem row fuel k wo sp remaining m).2.2 = - EIO ∧
      ∀ a, (writeLoopStagedF ok srcMem row fuel k wo sp remaining m).1 a =
        if wo ≤ a ∧ a < wo + d * row then srcMem (sp + (a - wo)) else m a := by
  intro d
  induction d with
  | zero =>
    intro fuel k wo sp remaining m hok hfail hdrow hle hlt
    simp only [Nat.zero_add, Nat.one_mul] at hdrow
    have h0 : remaining ≠ 0 := by omega
    obtain ⟨fuel', rfl⟩ : ∃ f, fuel = f + 1 := ⟨fuel - 1, by omega⟩
    have hk : ok k = false := by simpa using hfail
    refine ⟨by simp [writeLoopStagedF, h0, hk], fun a => ?_⟩
    simp only [writeLoopStagedF, h0, if_false, hk, Bool.false_eq_true, if_false]
    rw [if_neg (by omega)]
  | succ e ih =>
    intro fuel k wo sp remaining m hok hfail hdrow hle hlt
    have hmul : (e + 1 + 1) * row = (e + 1) * row + row := by ring
    have hmul2 : (e + 1) * row = e * row + row := by ring
    have h0 : remaining ≠ 0 := by omega
    obtain ⟨fuel', rfl⟩ : ∃ f, fuel = f + 1 := ⟨fuel - 1, by omega⟩
    have hk : ok k = true := by simpa using hok 0 (by omega)
    have hrec := ih fuel' (k + 1) (wo + row) (sp + row) (remaining - row)
      (progRow m wo (readBytes srcMem sp row))
      (fun j hj => by
        have := hok (j + 1) (by omega)
        have e1 : k + (j + 1) = k + 1 + j := by omega
        rw [e1] at this
        exact this)
      (by
        have e1 : k + (e + 1) = k + 1 + e := by omega
        rw [e1] at hfail
        exact hfail)
      (by omega) (by omega) (by omega)
    constructor
    · simp only [writeLoopStagedF, h0, if_false, hk, if_true]
      rw [u32_eq_of_lt (by omega)]
      exact hrec.1
    · intro a
      simp only [writeLoopStagedF, h0, if_false, hk, if_true]
      rw [u32_eq_of_lt (by omega)]
      rw [hrec.2 a]
      by_cases c1 : wo + row ≤ a ∧ a < wo + row + e * row
      · rw [if_pos c1, if_pos (by omega)]
        have : sp + row + (a - (wo + row)) = sp + (a - wo) := by omega
        rw [this]
      · rw [if_neg c1]
        unfold progRow
        rw [readBytes_length]
        by_cases c2 : wo ≤ a ∧ a < wo + row
        · rw [if_pos c2, if_pos (by omega)]
          rw [readBytes_getD srcMem sp (show a - wo < row by omega)]
        · rw [if_neg c2, if_neg (by omega)]

theorem eraseLoopF_fail_at {ok : Nat → Bool} {row : Nat} (hrow : 0 < row) :
    ∀ d fuel k eo size m,
      (∀ j, j < d → ok (k + j) = true) → ok (k + d) = false →
      (d + 1) * row ≤ size → size ≤ fuel → eo + size < U32MOD →
      (eraseLoopF ok row fuel k eo size m).2.2 = - EIO ∧
      ∀ a, (eraseLoopF ok row fuel k eo size m).1 a =
        if eo ≤ a ∧ a < eo + d * row then 0xFF else m a := by
  intro d
  induction d with
  | zero =>
    intro fuel k eo size m hok hfail hdrow hle hlt
    simp only [Nat.zero_add, Nat.one_mul] at hdrow
    have h0 : size ≠ 0 := by omega
    obtain ⟨fuel', rfl⟩ : ∃ f, fuel = f + 1 := ⟨fuel - 1, by omega⟩
    have hk : ok k = false := by simpa using hfail
    refine ⟨by simp [eraseLoopF, h0, hk], fun a => ?_⟩
    simp only [eraseLoopF, h0, if_false, hk, Bool.false_eq_true, if_false]
    rw [if_neg (by omega)]
  | succ e ih =>
    intro fuel k eo size m hok hfail hdrow hle hlt
    have hmul : (e + 1 + 1) * row = (e + 1) * row + row := by ring
    have hmul2 : (e + 1) * row = e * row + row := by ring
    have h0 : size ≠ 0 := by omega
    obtain ⟨fuel', rfl⟩ : ∃ f, fuel = f + 1 := ⟨fuel - 1, by omega⟩
    have hk : ok k = true := by simpa using hok 0 (by omega)
    have hrec := ih fuel' (k + 1) (eo + row) (size - row)
      (progRow m eo (List.replicate row 0xFF))
      (fun j hj => by
        have := hok (j + 1) (by omega)
        have e1 : k + (j + 1) = k + 1 + j := by omega
        rw [e1] at this
        exact this)
      (by
        have e1 : k + (e + 1) = k + 1 + e := by omega
        rw [e1] at hfail
        exact hfail)
      (by omega) (by omega) (by omega)
    constructor
    · simp only [eraseLoopF, h0, if_false, hk, if_true]
      rw [u32_eq_of_lt (by omega)]
      exact hrec.1
    · intro a
      simp only [eraseLoopF, h0, if_false, hk, if_true]
      rw [u32_eq_of_lt (by omega)]
      rw [hrec.2 a]
      by_cases c1 : eo + row ≤ a ∧ a < eo + row + e * row
      · rw [if_pos c1, if_pos (by omega)]
      · rw [if_neg c1]
        unfold progRow
        rw [List.length_replicate]
        by_cases c2 : eo ≤ a ∧ a < eo + row
        · rw [if_pos c2, if_pos (by omega)]
          exact getD_replicate (by omega)
        · rw [if_neg c2, if_neg (by omega)]

theorem writeLoopStagedF_congr (ok : Nat → Bool) {srcMem srcMem2 : Mem} {row : Nat} :
    ∀ fuel k wo sp sp2 remaining m,
      (∀ i, i < remaining → srcMem (sp + i) = srcMem2 (sp2 + i)) → row ∣ remaining →
      writeLoopStagedF ok srcMem row fuel k wo sp remaining m =
        writeLoopStagedF ok srcMem2 row fuel k wo sp2 remaining m := by
  intro fuel
  induction fuel with
  | zero =>
    intro k wo sp sp2 remaining m h hdvd
    by_cases h0 : remaining = 0 <;> simp [writeLoopStagedF, h0]
  | succ fuel ih =>
    intro k wo sp sp2 remaining m h hdvd
    by_cases h0 : remaining = 0
    · simp [writeLoopStagedF, h0]
    · have hrow : 0 < row := by
        rcases Nat.eq_zero_or_pos row with hr | hr
        · subst hr
          exact absurd (Nat.eq_zero_of_zero_dvd hdvd) h0
        · exact hr
      have hrle : row ≤ remaining := Nat.le_of_dvd (Nat.pos_of_ne_zero h0) hdvd
      have hbuf : readBytes srcMem sp row = readBytes srcMem2 sp2 row :=
        readBytes_congr (fun i hi => h i (by omega))
      have hrest : ∀ i, i < remaining - row →
          srcMem (sp + row + i) = srcMem2 (sp2 + row + i) := fun i hi => by
        have := h (row + i) (by omega)
        have e1 : sp + (row + i) = sp + row + i := by omega
        have e2 : sp2 + (row + i) = sp2 + row + i := by omega
        rw [e1, e2] at this
        exact this
      by_cases hok : ok k
      · simp only [writeLoopStagedF, h0, if_false, hok, if_true]
        rw [hbuf, ih (k + 1) (u32 (wo + row)) (sp + row) (sp2 + row) (remaining - row)
          (progRow m wo (readBytes srcMem2 sp2 row)) hrest (Nat.dvd_sub' hdvd dvd_rfl)]
      · simp [writeLoopStagedF, h0, hok, hbuf]

theorem mod_eq_zero_of_dvd {a b : Nat} (h : a ∣ b) : b % a = 0 := by
  obtain ⟨c, rfl⟩ := h
  exact Nat.mul_mod_right a c

/-! ### Concrete fixtures (the spec's scenario: region [0x1000, 0x2000),
256-byte write and erase blocks) -/

def cfg0 : IfxFlashConfig :=
  { base_addr := 0x1000, max_addr := 0x2000, write_block_size := 256, erase_block_size := 256 }

/-- Oracle for a primitive that always succeeds. -/
def okAll : Nat → Bool := fun _ => true

/-- Oracle for a primitive that succeeds on invocation 0 and fails on
invocation 1 (the second row). -/
def okFailSecond : Nat → Bool := fun j => j != 1

def mem0 : Mem := fun _ => 0

def srcSample : Mem := fun a => a % 256

def srcConst : Mem := fun _ => 0xAB

/-! ### Claims -/

/-- C1. Region containment: every request (of nonzero length, so that it
reaches validation) that validation does not reject with `-EINVAL` satisfies
`base_addr ≤ base_addr + offset` and `base_addr + offset + length ≤ max_addr`;
and every invocation of `Cy_Flash_WriteRow` made by `flash_ifx_write` or
`flash_ifx_erase` targets an address `addr` with `base_addr ≤ addr` and
`addr + row_len ≤ max_addr`. -/
theorem C1_region_containment (cfg : IfxFlashConfig) (ok : Nat → Bool) (m : Mem)
    (offset : Int) (srcMem : Mem) (sp len sz : Nat) (wf : WfConfig cfg) :
    (len ≠ 0 → (flash_ifx_write cfg ok m offset srcMem sp len).2.2 ≠ -EINVAL →
      0 ≤ offset ∧ cfg.base_addr ≤ cfg.base_addr + offset.toNat ∧
        cfg.base_addr + offset.toNat + len ≤ cfg.max_addr) ∧
    (len ≠ 0 → (flash_ifx_read cfg m offset len).2 ≠ -EINVAL →
      0 ≤ offset ∧ cfg.base_addr ≤ cfg.base_addr + offset.toNat ∧
        cfg.base_addr + offset.toNat + len ≤ cfg.max_addr) ∧
    (sz ≠ 0 → (flash_ifx_erase cfg ok m offset sz).2.2 ≠ -EINVAL →
      0 ≤ offset ∧ cfg.base_addr ≤ cfg.base_addr + offset.toNat ∧
        cfg.base_addr + offset.toNat + sz ≤ cfg.max_addr) ∧
    (∀ p ∈ (flash_ifx_write cfg ok m offset srcMem sp len).2.1,
      cfg.base_addr ≤ p.1 ∧ p.1 + cfg.write_block_size ≤ cfg.max_addr) ∧
    (∀ p ∈ (flash_ifx_erase cfg ok m offset sz).2.1,
      cfg.base_addr ≤ p.1 ∧ p.1 + cfg.erase_block_size ≤ cfg.max_addr) := by
  obtain ⟨wf1, wf2, wf3, wf4⟩ := wf
  refine ⟨?_, ?_, ?_, ?_, ?_⟩
  · intro hlen hret
    rw [flash_ifx_write_eq cfg ok m offset srcMem sp ⟨wf1, wf2, wf3, wf4⟩ hlen] at hret
    by_cases hv : writeValid cfg offset len
    · obtain ⟨hv0, hv1, hv2, hv3⟩ := hv
      omega
    · rw [if_neg hv] at hret
      exact absurd rfl hret
  · intro hlen hret
    rw [flash_ifx_read_eq cfg m offset ⟨wf1, wf2, wf3, wf4⟩ hlen] at hret
    by_cases hv : readValid cfg offset len
    · obtain ⟨hv0, hv1⟩ := hv
      omega
    · rw [if_neg hv] at hret
      exact absurd rfl hret
  · intro hsz hret
    rw [flash_ifx_erase_eq cfg ok m offset ⟨wf1, wf2, wf3, wf4⟩ hsz] at hret
    by_cases hv : eraseValid cfg offset sz
    · obtain ⟨hv0, hv1, hv2, hv3⟩ := hv
      omega
    · rw [if_neg hv] at hret
      exact absurd rfl hret
  · intro p hp
    by_cases hlen : len = 0
    · subst hlen
      simp [flash_ifx_write] at hp
    · rw [flash_ifx_write_eq cfg ok m offset srcMem sp ⟨wf1, wf2, wf3, wf4⟩ hlen] at hp
      by_cases hv : writeValid cfg offset len
      · obtain ⟨hv0, hv1, hv2, hv3⟩ := hv
        rw [if_pos ⟨hv0, hv1, hv2, hv3⟩] at hp
        have hb := writeLoopStagedF_trace_bound ok srcMem wf3 len 0
          (cfg.base_addr + offset.toNat) sp len m le_rfl (Nat.dvd_of_mod_eq_zero hv2)
          (by omega) p
        by_cases hsp : sp % 4 ≠ 0
        · rw [if_pos hsp] at hp
          have := hb hp
          omega
        · rw [if_neg hsp, writeLoopAlignedF_eq_stagedF] at hp
          have := hb hp
          omega
      · rw [if_neg hv] at hp
        simp at hp
  · intro p hp
    by_cases hsz : sz = 0
    · subst hsz
      simp [flash_ifx_erase] at hp
    · rw [flash_ifx_erase_eq cfg ok m offset ⟨wf1, wf2, wf3, wf4⟩ hsz] at hp
      by_cases hv : eraseValid cfg offset sz
      · obtain ⟨hv0, hv1, hv2, hv3⟩ := hv
        rw [if_pos ⟨hv0, hv1, hv2, hv3⟩] at hp
        have hb := eraseLoopF_trace ok wf4 sz 0 (cfg.base_addr + offset.toNat) sz m
          le_rfl (Nat.dvd_of_mod_eq_zero hv2) (by omega) p hp
        omega
      · rw [if_neg hv] at hp
        simp at hp

theorem C1_region_containment_witness :
    0 ≤ (0 : Int) ∧ cfg0.base_addr ≤ cfg0.base_addr + (0 : Int).toNat ∧
      cfg0.base_addr + (0 : Int).toNat + 256 ≤ cfg0.max_addr :=
  (C1_region_containment cfg0 okAll mem0 0 srcSample 0 256 256 (by decide)).1
    (by decide) (by decide)

/-- C2. Out-of-range rejection: any request with `length ≥ 1` and
`offset + length > max_addr - base_addr` returns `-EINVAL`, for all offsets
and lengths (the bound checks compare by subtraction, so no wraparound is
possible). -/
theorem C2_out_of_range (cfg : IfxFlashConfig) (ok : Nat → Bool) (m : Mem) (offset : Int)
    (srcMem : Mem) (sp : Nat) {len : Nat} (wf : WfConfig cfg) (hlen : 1 ≤ len)
    (hover : (cfg.max_addr - cfg.base_addr : Nat) < offset + len) :
    (flash_ifx_write cfg ok m offset srcMem sp len).2.2 = -EINVAL ∧
    (flash_ifx_read cfg m offset len).2 = -EINVAL ∧
    (flash_ifx_erase cfg ok m offset len).2.2 = -EINVAL := by
  have hlen0 : len ≠ 0 := by omega
  refine ⟨?_, ?_, ?_⟩
  · rw [flash_ifx_write_eq cfg ok m offset srcMem sp wf hlen0,
      if_neg (fun hv => by obtain ⟨hv0, hv1, hv2, hv3⟩ := hv; omega)]
  · rw [flash_ifx_read_eq cfg m offset wf hlen0,
      if_neg (fun hv => by obtain ⟨hv0, hv1⟩ := hv; omega)]
  · rw [flash_ifx_erase_eq cfg ok m offset wf hlen0,
      if_neg (fun hv => by obtain ⟨hv0, hv1, hv2, hv3⟩ := hv; omega)]

theorem C2_out_of_range_witness :
    (flash_ifx_write cfg0 okAll mem0 4096 srcSample 0 1).2.2 = -EINVAL ∧
    (flash_ifx_read cfg0 mem0 4096 1).2 = -EINVAL ∧
    (flash_ifx_erase cfg0 okAll mem0 4096 1).2.2 = -EINVAL :=
  C2_out_of_range cfg0 okAll mem0 4096 srcSample 0 (by decide) (by decide) (by decide)

/-- C3, counterexample to the claim as stated: at offset 1 (not a multiple of
the 256-byte block size) and length 0, the request is fully in-bounds and
unaligned, yet write and erase return 0 (success), not `-EINVAL`, because the
zero-length short-circuit precedes the alignment checks. -/
theorem C3_counterexample :
    (1 : Int) % (cfg0.write_block_size : Int) ≠ 0 ∧
    (1 : Int) % (cfg0.erase_block_size : Int) ≠ 0 ∧
    0 ≤ (1 : Int) ∧ (1 : Int).toNat + 0 ≤ cfg0.max_addr - cfg0.base_addr ∧
    (flash_ifx_write cfg0 okAll mem0 1 srcSample 0 0).2.2 = 0 ∧
    (flash_ifx_erase cfg0 okAll mem0 1 0).2.2 = 0 ∧
    (0 : Int) ≠ -EINVAL := by
  refine ⟨by decide, by decide, by decide, by decide, rfl, rfl, by decide⟩

/-- C3, amended: for requests of length ≥ 1, a write or erase whose offset or
length is not a multiple of the respective block size returns `-EINVAL`, even
when otherwise in-bounds; a read succeeds for any in-bounds offset/length with
no alignment requirement. -/
theorem C3_alignment_amended (cfg : IfxFlashConfig) (ok : Nat → Bool) (m : Mem)
    (offset : Int) (srcMem : Mem) (sp : Nat) {len : Nat} (wf : WfConfig cfg)
    (hlen : 1 ≤ len) :
    (¬ ((cfg.write_block_size : Int) ∣ offset) ∨ ¬ (cfg.write_block_size ∣ len) →
      (flash_ifx_write cfg ok m offset srcMem sp len).2.2 = -EINVAL) ∧
    (¬ ((cfg.erase_block_size : Int) ∣ offset) ∨ ¬ (cfg.erase_block_size ∣ len) →
      (flash_ifx_erase cfg ok m offset len).2.2 = -EINVAL) ∧
    (0 ≤ offset → offset.toNat + len ≤ cfg.max_addr - cfg.base_addr →
      (flash_ifx_read cfg m offset len).2 = 0) := by
  have hlen0 : len ≠ 0 := by omega
  refine ⟨?_, ?_, ?_⟩
  · intro hun
    rw [flash_ifx_write_eq cfg ok m offset srcMem sp wf hlen0, if_neg ?_]
    intro hv
    obtain ⟨hv0, hv1, hv2, hv3⟩ := hv
    rcases hun with hun | hun
    · refine hun ?_
      have : offset = (offset.toNat : Int) := by omega
      rw [this]
      exact_mod_cast Nat.dvd_of_mod_eq_zero hv1
    · exact hun (Nat.dvd_of_mod_eq_zero hv2)
  · intro hun
    rw [flash_ifx_erase_eq cfg ok m offset wf hlen0, if_neg ?_]
    intro hv
    obtain ⟨hv0, hv1, hv2, hv3⟩ := hv
    rcases hun with hun | hun
    · refine hun ?_
      have : offset = (offset.toNat : Int) := by omega
      rw [this]
      exact_mod_cast Nat.dvd_of_mod_eq_zero hv1
    · exact hun (Nat.dvd_of_mod_eq_zero hv2)
  · intro h0 hb
    rw [flash_ifx_read_eq cfg m offset wf hlen0, if_pos ⟨h0, hb⟩]

theorem C3_alignment_amended_witness :
    (flash_ifx_write cfg0 okAll mem0 4 srcSample 0 256).2.2 = -EINVAL ∧
    (flash_ifx_erase cfg0 okAll mem0 4 256).2.2 = -EINVAL ∧
    (flash_ifx_read cfg0 mem0 3 5).2 = 0 :=
  ⟨(C3_alignment_amended cfg0 okAll mem0 4 srcSample 0 (by decide) (by decide)).1
      (Or.inl (by decide)),
    (C3_alignment_amended cfg0 okAll mem0 4 srcSample 0 (by decide) (by decide)).2.1
      (Or.inl (by decide)),
    (C3_alignment_amended cfg0 okAll mem0 3 srcSample 0 (by decide) (by decide)).2.2
      (by decide) (by decide)⟩

/-- C4, counterexample to the claim as stated: at offset −1 with length 0
("any length" includes 0), all three operations return 0 (success), not
`-EINVAL`, because the zero-length short-circuit precedes the sign check. -/
theorem C4_counterexample :
    (-1 : Int) < 0 ∧
    (flash_ifx_write cfg0 okAll mem0 (-1) srcSample 0 0).2.2 ≠ -EINVAL ∧
    (flash_ifx_read cfg0 mem0 (-1) 0).2 ≠ -EINVAL ∧
    (flash_ifx_erase cfg0 okAll mem0 (-1) 0).2.2 ≠ -EINVAL := by
  refine ⟨by decide, by decide, by decide, by decide⟩

/-- C4, amended: for every operation and every negative offset, any request
of length ≥ 1 returns `-EINVAL`. -/
theorem C4_negative_offset_amended (cfg : IfxFlashConfig) (ok : Nat → Bool) (m : Mem)
    {offset : Int} (srcMem : Mem) (sp : Nat) {len : Nat} (hneg : offset < 0)
    (hlen : 1 ≤ len) :
    (flash_ifx_write cfg ok m offset srcMem sp len).2.2 = -EINVAL ∧
    (flash_ifx_read cfg m offset len).2 = -EINVAL ∧
    (flash_ifx_erase cfg ok m offset len).2.2 = -EINVAL := by
  have hlen0 : len ≠ 0 := by omega
  refine ⟨?_, ?_, ?_⟩
  · unfold flash_ifx_write
    rw [if_neg hlen0, if_pos hneg]
  · unfold flash_ifx_read
    rw [if_neg hlen0, if_pos (Or.inl hneg)]
  · unfold flash_ifx_erase
    rw [if_neg hlen0]
    by_cases ha : u32ofInt offset % cfg.erase_block_size ≠ 0
    · rw [if_pos ha]
    · rw [if_neg ha]
      by_cases hs : len % cfg.erase_block_size ≠ 0
      · rw [if_pos hs]
      · rw [if_neg hs, if_pos (Or.inl hneg)]

theorem C4_negative_offset_amended_witness :
    (flash_ifx_write cfg0 okAll mem0 (-1) srcSample 0 1).2.2 = -EINVAL ∧
    (flash_ifx_read cfg0 mem0 (-1) 1).2 = -EINVAL ∧
    (flash_ifx_erase cfg0 okAll mem0 (-1) 1).2.2 = -EINVAL :=
  C4_negative_offset_amended cfg0 okAll mem0 srcSample 0 (by decide) (by decide)

/-- C5. Zero-length no-op: for every operation and every offset (negative or
beyond the span included), length 0 returns success immediately, invokes the
primitive on no row (empty trace) and leaves the flash contents unchanged. -/
theorem C5_zero_length (cfg : IfxFlashConfig) (ok : Nat → Bool) (m : Mem) (offset : Int)
    (srcMem : Mem) (sp : Nat) :
    flash_ifx_write cfg ok m offset srcMem sp 0 = (m, [], 0) ∧
    flash_ifx_read cfg m offset 0 = ([], 0) ∧
    flash_ifx_erase cfg ok m offset 0 = (m, [], 0) :=
  ⟨rfl, rfl, rfl⟩

/-- C6. Write/read round-trip: with an always-succeeding primitive (the
faithful simulator `progRow`), a block-aligned in-bounds write of a buffer
whose length is a positive multiple of `write_block_size` succeeds, and
reading the same range back returns exactly the bytes that were written
(the bytes of the source buffer `[sp, sp+len)`). -/
theorem C6_round_trip (cfg : IfxFlashConfig) (ok : Nat → Bool) (m : Mem) (srcMem : Mem)
    (sp O len : Nat) (wf : WfConfig cfg) (hok : ∀ j, ok j = true)
    (hO : cfg.write_block_size ∣ O) (hlen0 : 0 < len)
    (hlen : cfg.write_block_size ∣ len)
    (hbound : O + len ≤ cfg.max_addr - cfg.base_addr) :
    (flash_ifx_write cfg ok m O srcMem sp len).2.2 = 0 ∧
    flash_ifx_read cfg (flash_ifx_write cfg ok m O srcMem sp len).1 O len =
      (readBytes srcMem sp len, 0) := by
  obtain ⟨wf1, wf2, wf3, wf4⟩ := wf
  have hlen' : len ≠ 0 := by omega
  have hv : writeValid cfg O len := by
    refine ⟨Int.natCast_nonneg O, ?_, mod_eq_zero_of_dvd hlen, ?_⟩
    · rw [Int.toNat_natCast]
      exact mod_eq_zero_of_dvd hO
    · rw [Int.toNat_natCast]
      exact hbound
  rw [flash_ifx_write_eq cfg ok m O srcMem sp ⟨wf1, wf2, wf3, wf4⟩ hlen', if_pos hv]
  have hstaged := writeLoopStagedF_all_ok srcMem hok wf3 len 0
    (cfg.base_addr + ((O : Int)).toNat) sp len m le_rfl hlen
    (by rw [Int.toNat_natCast]; omega)
  have hread : flash_ifx_read cfg
      (writeLoopStagedF ok srcMem cfg.write_block_size len 0
        (cfg.base_addr + ((O : Int)).toNat) sp len m).1 O len =
      (readBytes srcMem sp len, 0) := by
    rw [flash_ifx_read_eq cfg _ O ⟨wf1, wf2, wf3, wf4⟩ hlen',
      if_pos ⟨Int.natCast_nonneg O, by rw [Int.toNat_natCast]; exact hbound⟩]
    refine Prod.ext ?_ rfl
    refine readBytes_congr (fun i hi => ?_)
    rw [hstaged.2 (cfg.base_addr + ((O : Int)).toNat + i), if_pos (by omega)]
    congr 1
    omega
  by_cases hsp : sp % 4 ≠ 0
  · rw [if_pos hsp]
    exact ⟨hstaged.1, hread⟩
  · rw [if_neg hsp, writeLoopAlignedF_eq_stagedF]
    exact ⟨hstaged.1, hread⟩

theorem C6_round_trip_witness :
    (flash_ifx_write cfg0 okAll mem0 256 srcSample 1 512).2.2 = 0 ∧
    flash_ifx_read cfg0 (flash_ifx_write cfg0 okAll mem0 256 srcSample 1 512).1 256 512 =
      (readBytes srcSample 1 512, 0) :=
  C6_round_trip cfg0 okAll mem0 srcSample 1 256 512 (by decide) (fun _ => rfl) (by decide)
    (by decide) (by decide) (by decide)

/-- C7. Fail-fast on row failure: for a validated write spanning at least N
rows whose primitive succeeds on invocations 0..N-2 and fails on invocation
N-1 (the Nth row), the call returns `- EIO`, exactly the first N-1 rows hold
the new data (no rollback), and the Nth row and everything beyond are
unchanged; and likewise, independently, for a validated erase spanning at
least Ne rows failing on the Ne-th row. -/
theorem C7_fail_fast (cfg : IfxFlashConfig) (ok : Nat → Bool) (m : Mem) (srcMem : Mem)
    (sp O len Oe sz N Ne : Nat) (wf : WfConfig cfg) :
    ((∀ j, j < N - 1 → ok j = true) → ok (N - 1) = false → 1 ≤ N →
      cfg.write_block_size ∣ O → cfg.write_block_size ∣ len →
      N * cfg.write_block_size ≤ len → O + len ≤ cfg.max_addr - cfg.base_addr →
      (flash_ifx_write cfg ok m O srcMem sp len).2.2 = - EIO ∧
        ∀ a, (flash_ifx_write cfg ok m O srcMem sp len).1 a =
          if cfg.base_addr + O ≤ a ∧
              a < cfg.base_addr + O + (N - 1) * cfg.write_block_size
          then srcMem (sp + (a - (cfg.base_addr + O))) else m a) ∧
    ((∀ j, j < Ne - 1 → ok j = true) → ok (Ne - 1) = false → 1 ≤ Ne →
      cfg.erase_block_size ∣ Oe → cfg.erase_block_size ∣ sz →
      Ne * cfg.erase_block_size ≤ sz → Oe + sz ≤ cfg.max_addr - cfg.base_addr →
      (flash_ifx_erase cfg ok m Oe sz).2.2 = - EIO ∧
        ∀ a, (flash_ifx_erase cfg ok m Oe sz).1 a =
          if cfg.base_addr + Oe ≤ a ∧
              a < cfg.base_addr + Oe + (Ne - 1) * cfg.erase_block_size
          then 0xFF else m a) := by
  obtain ⟨wf1, wf2, wf3, wf4⟩ := wf
  constructor
  · intro hok hfail hN hO hlen hNlen hbound
    have hBlen : cfg.write_block_size ≤ len := by
      have h1 : 1 * cfg.write_block_size ≤ N * cfg.write_block_size :=
        Nat.mul_le_mul_right _ hN
      omega
    have hlen' : len ≠ 0 := by omega
    have hNmul : (N - 1 + 1) * cfg.write_block_size = N * cfg.write_block_size := by
      congr 1
      omega
    have hv : writeValid cfg O len :=
      ⟨Int.natCast_nonneg O,
        by rw [Int.toNat_natCast]; exact mod_eq_zero_of_dvd hO,
        mod_eq_zero_of_dvd hlen,
        by rw [Int.toNat_natCast]; exact hbound⟩
    rw [flash_ifx_write_eq cfg ok m O srcMem sp ⟨wf1, wf2, wf3, wf4⟩ hlen', if_pos hv]
    have hfa := writeLoopStagedF_fail_at srcMem wf3 (N - 1) len 0
      (cfg.base_addr + ((O : Int)).toNat) sp len m
      (fun j hj => by simpa using hok j hj) (by simpa using hfail)
      (by rw [hNmul]; exact hNlen) le_rfl (by rw [Int.toNat_natCast]; omega)
    rw [Int.toNat_natCast] at hfa
    by_cases hsp : sp % 4 ≠ 0
    · rw [if_pos hsp]
      exact hfa
    · rw [if_neg hsp, writeLoopAlignedF_eq_stagedF]
      exact hfa
  · intro hok hfail hNe hOe hsz hNsz hbounde
    have hEsz : cfg.erase_block_size ≤ sz := by
      have h1 : 1 * cfg.erase_block_size ≤ Ne * cfg.erase_block_size :=
        Nat.mul_le_mul_right _ hNe
      omega
    have hsz' : sz ≠ 0 := by omega
    have hNmule : (Ne - 1 + 1) * cfg.erase_block_size = Ne * cfg.erase_block_size := by
      congr 1
      omega
    have hv : eraseValid cfg Oe sz :=
      ⟨Int.natCast_nonneg Oe,
        by rw [Int.toNat_natCast]; exact mod_eq_zero_of_dvd hOe,
        mod_eq_zero_of_dvd hsz,
        by rw [Int.toNat_natCast]; exact hbounde⟩
    rw [flash_ifx_erase_eq cfg ok m Oe ⟨wf1, wf2, wf3, wf4⟩ hsz', if_pos hv]
    have hfa := eraseLoopF_fail_at wf4 (Ne - 1) sz 0
      (cfg.base_addr + ((Oe : Int)).toNat) sz m
      (fun j hj => by simpa using hok j hj) (by simpa using hfail)
      (by rw [hNmule]; exact hNsz) le_rfl (by rw [Int.toNat_natCast]; omega)
    rw [Int.toNat_natCast] at hfa
    exact hfa

theorem C7_fail_fast_witness :
    (flash_ifx_write cfg0 okFailSecond mem0 0 srcSample 0 768).2.2 = - EIO ∧
    (flash_ifx_write cfg0 okFailSecond mem0 0 srcSample 0 768).1 4096 = srcSample 0 ∧
    (flash_ifx_write cfg0 okFailSecond mem0 0 srcSample 0 768).1 4352 = mem0 4352 ∧
    (flash_ifx_erase cfg0 okFailSecond mem0 0 768).2.2 = - EIO ∧
    (flash_ifx_erase cfg0 okFailSecond mem0 0 768).1 4096 = 0xFF ∧
    (flash_ifx_erase cfg0 okFailSecond mem0 0 768).1 4352 = mem0 4352 := by
  have h := C7_fail_fast cfg0 okFailSecond mem0 srcSample 0 0 768 0 768 2 2 (by decide)
  have hw := h.1
    (fun j hj => by
      have hj0 : j = 0 := by omega
      subst hj0
      rfl)
    (by decide) (by decide) (by decide) (by decide) (by decide) (by decide)
  have he := h.2
    (fun j hj => by
      have hj0 : j = 0 := by omega
      subst hj0
      rfl)
    (by decide) (by decide) (by decide) (by decide) (by decide) (by decide)
  simp only [Nat.cast_zero] at hw he
  refine ⟨hw.1, ?_, ?_, he.1, ?_, ?_⟩
  · rw [hw.2 4096]
    norm_num [cfg0]
  · rw [hw.2 4352]
    norm_num [cfg0]
  · rw [he.2 4096]
    norm_num [cfg0]
  · rw [he.2 4352]
    norm_num [cfg0]

/-- C8. Erase fills 0xFF: a validated erase (aligned, in-bounds, size a
positive multiple of `erase_block_size`) with an always-succeeding primitive
passes only all-0xFF rows to the primitive, succeeds, and reading the erased
range back yields bytes all equal to the declared erase value 0xFF. -/
theorem C8_erase_fills_ff (cfg : IfxFlashConfig) (ok : Nat → Bool) (m : Mem)
    (O sz : Nat) (wf : WfConfig cfg) (hok : ∀ j, ok j = true)
    (hO : cfg.erase_block_size ∣ O) (hsz0 : 0 < sz)
    (hsz : cfg.erase_block_size ∣ sz)
    (hbound : O + sz ≤ cfg.max_addr - cfg.base_addr) :
    (flash_ifx_erase cfg ok m O sz).2.2 = 0 ∧
    (∀ p ∈ (flash_ifx_erase cfg ok m O sz).2.1,
       p.2 = List.replicate cfg.erase_block_size
         (flash_parameters cfg.write_block_size).erase_value) ∧
    flash_ifx_read cfg (flash_ifx_erase cfg ok m O sz).1 O sz =
      (List.replicate sz (flash_parameters cfg.write_block_size).erase_value, 0) := by
  obtain ⟨wf1, wf2, wf3, wf4⟩ := wf
  have hsz' : sz ≠ 0 := by omega
  have hv : eraseValid cfg O sz :=
    ⟨Int.natCast_nonneg O,
      by rw [Int.toNat_natCast]; exact mod_eq_zero_of_dvd hO,
      mod_eq_zero_of_dvd hsz,
      by rw [Int.toNat_natCast]; exact hbound⟩
  rw [flash_ifx_erase_eq cfg ok m O ⟨wf1, wf2, wf3, wf4⟩ hsz', if_pos hv]
  have hall := eraseLoopF_all_ok hok wf4 sz 0 (cfg.base_addr + ((O : Int)).toNat) sz m
    le_rfl hsz (by rw [Int.toNat_natCast]; omega)
  refine ⟨hall.1, ?_, ?_⟩
  · intro p hp
    exact (eraseLoopF_trace ok wf4 sz 0 (cfg.base_addr + ((O : Int)).toNat) sz m
      le_rfl hsz (by rw [Int.toNat_natCast]; omega) p hp).2
  · rw [flash_ifx_read_eq cfg _ O ⟨wf1, wf2, wf3, wf4⟩ hsz',
      if_pos ⟨Int.natCast_nonneg O, by rw [Int.toNat_natCast]; exact hbound⟩]
    refine Prod.ext ?_ rfl
    refine readBytes_eq_replicate (fun i hi => ?_)
    rw [hall.2 (cfg.base_addr + ((O : Int)).toNat + i), if_pos (by omega)]
    rfl

theorem C8_erase_fills_ff_witness :
    (flash_ifx_erase cfg0 okAll mem0 256 256).2.2 = 0 ∧
    flash_ifx_read cfg0 (flash_ifx_erase cfg0 okAll mem0 256 256).1 256 256 =
      (List.replicate 256 0xFF, 0) := by
  have h := C8_erase_fills_ff cfg0 okAll mem0 256 256 (by decide) (fun _ => rfl) (by decide)
    (by decide) (by decide) (by decide)
  exact ⟨h.1, h.2.2⟩

/-- C9. Staging-branch equivalence: the result of `flash_ifx_write` (final
memory, primitive invocations, return code) depends only on the bytes of the
source buffer, not on the source pointer's 4-byte alignment — the staged
branch and the zero-copy branch are interchangeable; moreover, since the row
size is a multiple of 4, the source pointer's alignment residue is invariant
across loop iterations, justifying the single pre-loop alignment check. -/
theorem C9_staging_equivalence (cfg : IfxFlashConfig) (ok : Nat → Bool) (m : Mem)
    (offset : Int) (srcMem srcMem2 : Mem) (sp sp2 len : Nat)
    (hbytes : ∀ i, i < len → srcMem (sp + i) = srcMem2 (sp2 + i)) :
    flash_ifx_write cfg ok m offset srcMem sp len =
      flash_ifx_write cfg ok m offset srcMem2 sp2 len ∧
    (4 ∣ cfg.write_block_size →
      ∀ j, (sp + j * cfg.write_block_size) % 4 = sp % 4) := by
  constructor
  · unfold flash_ifx_write
    by_cases h1 : len = 0
    · rw [if_pos h1, if_pos h1]
    rw [if_neg h1, if_neg h1]
    by_cases h2 : offset < 0
    · rw [if_pos h2, if_pos h2]
    rw [if_neg h2, if_neg h2]
    by_cases h3 : offset.toNat % cfg.write_block_size ≠ 0 ∨
        len % cfg.write_block_size ≠ 0
    · rw [if_pos h3, if_pos h3]
    rw [if_neg h3, if_neg h3]
    by_cases h4 : (u32sub cfg.max_addr cfg.base_addr : Int) < offset
    · rw [if_pos h4, if_pos h4]
    rw [if_neg h4, if_neg h4]
    by_cases h5 : u32sub cfg.max_addr (u32 (cfg.base_addr + offset.toNat)) < len
    · rw [if_pos h5, if_pos h5]
    rw [if_neg h5, if_neg h5]
    push_neg at h3
    have hdvd : cfg.write_block_size ∣ len := Nat.dvd_of_mod_eq_zero h3.2
    have hcongr := writeLoopStagedF_congr ok len 0
      (u32 (cfg.base_addr + offset.toNat)) sp sp2 len m hbytes hdvd
    by_cases hsp : sp % 4 ≠ 0 <;> by_cases hsp2 : sp2 % 4 ≠ 0
    · rw [if_pos hsp, if_pos hsp2]
      exact hcongr
    · rw [if_pos hsp, if_neg hsp2, writeLoopAlignedF_eq_stagedF]
      exact hcongr
    · rw [if_neg hsp, if_pos hsp2, writeLoopAlignedF_eq_stagedF]
      exact hcongr
    · rw [if_neg hsp, if_neg hsp2, writeLoopAlignedF_eq_stagedF,
        writeLoopAlignedF_eq_stagedF]
      exact hcongr
  · intro hd j
    obtain ⟨t, ht⟩ := hd
    have h1 : sp + j * cfg.write_block_size = sp + j * t * 4 := by
      rw [ht]
      ring
    rw [h1, Nat.add_mul_mod_self_right]

theorem C9_staging_equivalence_witness :
    flash_ifx_write cfg0 okAll mem0 0 srcConst 1 512 =
      flash_ifx_write cfg0 okAll mem0 0 srcConst 0 512 ∧
    (1 + 3 * cfg0.write_block_size) % 4 = 1 % 4 := by
  have h := C9_staging_equivalence cfg0 okAll mem0 0 srcConst srcConst 1 0 512
    (fun i _ => rfl)
  exact ⟨h.1, h.2 (by decide) 3⟩

/-- C10. Return-value completeness: `flash_ifx_read` returns exactly 0 or
`-EINVAL` (never `- EIO`: it never invokes the primitive); `flash_ifx_write`
and `flash_ifx_erase` return exactly 0, `-EINVAL`, or `- EIO`; and
`flash_ifx_get_size` stores `max_addr - base_addr` and returns 0. -/
theorem C10_return_completeness (cfg : IfxFlashConfig) (ok : Nat → Bool) (m : Mem)
    (offset : Int) (srcMem : Mem) (sp len sz : Nat) (wf : WfConfig cfg) :
    ((flash_ifx_read cfg m offset len).2 = 0 ∨
      (flash_ifx_read cfg m offset len).2 = -EINVAL) ∧
    ((flash_ifx_write cfg ok m offset srcMem sp len).2.2 = 0 ∨
      (flash_ifx_write cfg ok m offset srcMem sp len).2.2 = -EINVAL ∨
      (flash_ifx_write cfg ok m offset srcMem sp len).2.2 = - EIO) ∧
    ((flash_ifx_erase cfg ok m offset sz).2.2 = 0 ∨
      (flash_ifx_erase cfg ok m offset sz).2.2 = -EINVAL ∨
      (flash_ifx_erase cfg ok m offset sz).2.2 = - EIO) ∧
    flash_ifx_get_size cfg = (cfg.max_addr - cfg.base_addr, 0) := by
  obtain ⟨wf1, wf2, wf3, wf4⟩ := wf
  refine ⟨?_, ?_, ?_, ?_⟩
  · by_cases hlen : len = 0
    · subst hlen
      exact Or.inl rfl
    · rw [flash_ifx_read_eq cfg m offset ⟨wf1, wf2, wf3, wf4⟩ hlen]
      by_cases hv : readValid cfg offset len
      · rw [if_pos hv]
        exact Or.inl rfl
      · rw [if_neg hv]
        exact Or.inr rfl
  · by_cases hlen : len = 0
    · subst hlen
      exact Or.inl rfl
    · rw [flash_ifx_write_eq cfg ok m offset srcMem sp ⟨wf1, wf2, wf3, wf4⟩ hlen]
      by_cases hv : writeValid cfg offset len
      · rw [if_pos hv]
        by_cases hsp : sp % 4 ≠ 0
        · rw [if_pos hsp]
          rcases writeLoopStagedF_ret ok srcMem cfg.write_block_size len 0
            (cfg.base_addr + offset.toNat) sp len m with h | h
          · exact Or.inl h
          · exact Or.inr (Or.inr h)
        · rw [if_neg hsp, writeLoopAlignedF_eq_stagedF]
          rcases writeLoopStagedF_ret ok srcMem cfg.write_block_size len 0
            (cfg.base_addr + offset.toNat) sp len m with h | h
          · exact Or.inl h
          · exact Or.inr (Or.inr h)
      · rw [if_neg hv]
        exact Or.inr (Or.inl rfl)
  · by_cases hsz : sz = 0
    · subst hsz
      exact Or.inl rfl
    · rw [flash_ifx_erase_eq cfg ok m offset ⟨wf1, wf2, wf3, wf4⟩ hsz]
      by_cases hv : eraseValid cfg offset sz
      · rw [if_pos hv]
        rcases eraseLoopF_ret ok cfg.erase_block_size sz 0
          (cfg.base_addr + offset.toNat) sz m with h | h
        · exact Or.inl h
        · exact Or.inr (Or.inr h)
      · rw [if_neg hv]
        exact Or.inr (Or.inl rfl)
  · unfold flash_ifx_get_size
    rw [u32sub_eq_sub (le_of_lt wf1) wf2]

theorem C10_return_completeness_witness :
    ((flash_ifx_read cfg0 mem0 7 3).2 = 0 ∨
      (flash_ifx_read cfg0 mem0 7 3).2 = -EINVAL) ∧
    ((flash_ifx_write cfg0 okAll mem0 7 srcSample 0 3).2.2 = 0 ∨
      (flash_ifx_write cfg0 okAll mem0 7 srcSample 0 3).2.2 = -EINVAL ∨
      (flash_ifx_write cfg0 okAll mem0 7 srcSample 0 3).2.2 = - EIO) ∧
    ((flash_ifx_erase cfg0 okAll mem0 7 3).2.2 = 0 ∨
      (flash_ifx_erase cfg0 okAll mem0 7 3).2.2 = -EINVAL ∨
      (flash_ifx_erase cfg0 okAll mem0 7 3).2.2 = - EIO) ∧
    flash_ifx_get_size cfg0 = (cfg0.max_addr - cfg0.base_addr, 0) :=
  C10_return_completeness cfg0 okAll mem0 7 srcSample 0 3 3 (by decide)

end IfxFlash
